import Mathlib

/-!
# Verification of the folly wangle future/promise shared Core

Shallow embedding of `folly/wangle/detail/Core.h` (the shared state object
for Future and Promise, plus the fan-in combinator contexts), with theorems
checking the natural-language specification against it.

The Core's fields are modelled directly; callback invocations and executor
enqueues are recorded in event lists (`calls`, `tasks`) so that
"the callback is invoked exactly once with Try t" becomes a statement about
those lists.  `delete this` is modelled by a `destroyed` flag.

The executor dispatch branch moves `result_` and `callback_` out of the Core
(`MoveWrapper(std::move(result_))` / `std::move(callback_)`); `folly/Optional.h`
is not part of the sources here, so the moved-from cells are modelled from the
spec's dispatch rule, which says the executor path moves result and callback
out (leaving the cells empty).
-/

namespace Wangle

/-- Exception payloads that can travel inside a `Try`.  `brokenPromise`
models the `BrokenPromise` exception auto-installed by `detachPromise`. -/
inductive Exn where
  | brokenPromise : Exn
  | other : Nat → Exn
deriving DecidableEq, Repr

/-- `Try<T>`: either a success value or a captured failure. -/
inductive Try (T : Type) where
  | val : T → Try T
  | exn : Exn → Try T
deriving DecidableEq, Repr

/-- A stored continuation.  User callbacks are opaque, so they are modelled
by an identifier; `emptyCallback` is the no-op `empty_callback<T>` that
`detachFuture` installs when no callback was ever registered. -/
inductive Callback where
  | emptyCallback : Callback
  | user : Nat → Callback
deriving DecidableEq, Repr

/-- `std::logic_error` with its message, as thrown by the Core. -/
inductive LogicError where
  | logicError : String → LogicError
deriving DecidableEq, Repr

/-- `FutureNotReady`, thrown by `getTry` when no result is stored. -/
inductive NotReadyError where
  | futureNotReady : NotReadyError
deriving DecidableEq, Repr

/-- The shared state object `Core<T>` of `folly/wangle/detail/Core.h`,
with instrumentation fields:
`calls` records inline callback invocations (callback, argument),
`tasks` records closures handed to the executor (callback, argument), and
`destroyed` records `delete this` in `detachOne`. -/
structure Core (T : Type) where
  result : Option (Try T) := none
  callback : Option Callback := none
  calledBack : Bool := false
  detached : Nat := 0
  active : Bool := true
  executor : Bool := false
  calls : List (Callback × Try T) := []
  tasks : List (Callback × Try T) := []
  destroyed : Bool := false
deriving DecidableEq, Repr

variable {T : Type}

/-- `Core::ready`: true iff `result_` holds a value. -/
def ready (c : Core T) : Bool :=
  c.result.isSome

/-- `Core::isActive`. -/
def isActive (c : Core T) : Bool :=
  c.active

/-- `Core::maybeCallback`: under the mutex, if `!calledBack_ && result_ &&
callback_ && isActive()`, dispatch.  With an executor, move result and
callback out and enqueue the task; otherwise set `calledBack_`, unlock, and
invoke the callback inline with `std::move(*result_)` (which leaves
`result_` engaged and `callback_` in place). -/
def maybeCallback (c : Core T) : Core T :=
  match c.result, c.callback with
  | some r, some cb =>
    if !c.calledBack && c.active then
      if c.executor then
        { c with result := none, callback := none, calledBack := true,
                 tasks := c.tasks ++ [(cb, r)] }
      else
        { c with calledBack := true, calls := c.calls ++ [(cb, r)] }
    else c
  | _, _ => c

/-- `Core::setCallback`: throws `logic_error("setCallback called twice")`
if a callback is already stored, else stores it and runs `maybeCallback`. -/
def setCallback (c : Core T) (f : Callback) : Except LogicError (Core T) :=
  if c.callback.isSome then
    Except.error (LogicError.logicError "setCallback called twice")
  else
    Except.ok (maybeCallback { c with callback := some f })

/-- `Core::setResult`: throws `logic_error("setResult called twice")` if
`ready()`, else stores the `Try` and runs `maybeCallback`. -/
def setResult (c : Core T) (t : Try T) : Except LogicError (Core T) :=
  if ready c then
    Except.error (LogicError.logicError "setResult called twice")
  else
    Except.ok (maybeCallback { c with result := some t })

/-- `Core::getTry`: the stored `Try`, or `FutureNotReady`. -/
def getTry (c : Core T) : Except NotReadyError (Try T) :=
  match c.result with
  | some r => Except.ok r
  | none => Except.error NotReadyError.futureNotReady

/-- `Core::detachOne`: increment `detached_`; if it reached 2, `delete this`. -/
def detachOne (c : Core T) : Core T :=
  let d := c.detached + 1
  if d = 2 then { c with detached := d, destroyed := true }
  else { c with detached := d }

/-- `Core::deactivate`. -/
def deactivate (c : Core T) : Core T :=
  { c with active := false }

/-- `Core::activate`: set `active_` then run `maybeCallback`. -/
def activate (c : Core T) : Core T :=
  maybeCallback { c with active := true }

/-- `Core::setExecutor` (executor presence is what matters; modelled as a flag). -/
def setExecutor (c : Core T) : Core T :=
  { c with executor := true }

/-- `Core::detachFuture`: if no callback is stored, register
`empty_callback` (the `setCallback` guard cannot fire, so its success branch
is inlined); then `activate()`; then `detachOne()`. -/
def detachFuture (c : Core T) : Core T :=
  let c1 := if c.callback.isSome then c
            else maybeCallback { c with callback := some Callback.emptyCallback }
  detachOne (activate c1)

/-- `Core::detachPromise`: if not `ready()`, set a `BrokenPromise` failure
result (the `setResult` guard cannot fire, so its success branch is
inlined); then `detachOne()`. -/
def detachPromise (c : Core T) : Core T :=
  let c1 := if ready c then c
            else maybeCallback { c with result := some (Try.exn Exn.brokenPromise) }
  detachOne c1

/-- The operations the two handles can perform on a Core. -/
inductive Op (T : Type) where
  | setCallbackOp : Callback → Op T
  | setResultOp : Try T → Op T
  | deactivateOp : Op T
  | activateOp : Op T
  | setExecutorOp : Op T
  | detachFutureOp : Op T
  | detachPromiseOp : Op T
deriving DecidableEq, Repr

/-- One operation applied to a Core.  A thrown `logic_error` leaves the
state unchanged (the guard precedes every mutation in the source). -/
def step (c : Core T) (op : Op T) : Core T :=
  match op with
  | Op.setCallbackOp f =>
    match setCallback c f with
    | Except.ok c2 => c2
    | Except.error _ => c
  | Op.setResultOp t =>
    match setResult c t with
    | Except.ok c2 => c2
    | Except.error _ => c
  | Op.deactivateOp => deactivate c
  | Op.activateOp => activate c
  | Op.setExecutorOp => setExecutor c
  | Op.detachFutureOp => detachFuture c
  | Op.detachPromiseOp => detachPromise c

/-- A freshly constructed Core (all member initialisers). -/
def initCore : Core T :=
  {}

/-- Run a sequence of operations from a fresh Core. -/
def run (ops : List (Op T)) : Core T :=
  ops.foldl step initCore

/-- Number of dispatches that have happened: inline invocations plus
executor-enqueued tasks. -/
def dispatchCount (c : Core T) : Nat :=
  c.calls.length + c.tasks.length

/-- C1: with no executor installed and `active` never set false, if
`setCallback(f)` and `setResult(t)` are each called exactly once, in either
order, then `f` is invoked exactly once, inline, and the `Try` it receives
is exactly `t`. -/
theorem callback_receives_result_either_order (id : Nat) (t : Try Nat) :
    (run [Op.setCallbackOp (Callback.user id), Op.setResultOp t]).calls
        = [(Callback.user id, t)] ∧
    (run [Op.setCallbackOp (Callback.user id), Op.setResultOp t]).tasks = [] ∧
    (run [Op.setResultOp t, Op.setCallbackOp (Callback.user id)]).calls
        = [(Callback.user id, t)] ∧
    (run [Op.setResultOp t, Op.setCallbackOp (Callback.user id)]).tasks = [] :=
  ⟨rfl, rfl, rfl, rfl⟩

/-- C6: after `setCallback(f)` with no `setResult`, `detachPromise` installs
a `BrokenPromise` failure result and `f` is invoked once with that failure. -/
theorem broken_promise_delivered (id : Nat) :
    (run ([Op.setCallbackOp (Callback.user id), Op.detachPromiseOp] :
        List (Op Nat))).result = some (Try.exn Exn.brokenPromise) ∧
    (run ([Op.setCallbackOp (Callback.user id), Op.detachPromiseOp] :
        List (Op Nat))).calls = [(Callback.user id, Try.exn Exn.brokenPromise)] ∧
    (run ([Op.setCallbackOp (Callback.user id), Op.detachPromiseOp] :
        List (Op Nat))).tasks = [] :=
  ⟨rfl, rfl, rfl⟩

/-- C7: with no executor, after `setCallback(f); deactivate(); setResult(t)`
the callback has not run; a subsequent `activate()` invokes it exactly once
with `t`. -/
theorem deactivate_defers_callback (id : Nat) (t : Try Nat) :
    (run [Op.setCallbackOp (Callback.user id), Op.deactivateOp,
          Op.setResultOp t]).calls = [] ∧
    (run [Op.setCallbackOp (Callback.user id), Op.deactivateOp,
          Op.setResultOp t]).tasks = [] ∧
    (step (run [Op.setCallbackOp (Callback.user id), Op.deactivateOp,
          Op.setResultOp t]) Op.activateOp).calls = [(Callback.user id, t)] ∧
    (step (run [Op.setCallbackOp (Callback.user id), Op.deactivateOp,
          Op.setResultOp t]) Op.activateOp).tasks = [] :=
  ⟨rfl, rfl, rfl, rfl⟩

/-! ### Dispatch-rule lemmas -/

/-- If `calledBack_` is already set, `maybeCallback` changes nothing. -/
lemma maybeCallback_of_calledBack (c : Core T) (h : c.calledBack = true) :
    maybeCallback c = c := by
  unfold maybeCallback
  rcases hr : c.result with _ | r <;> rcases hc : c.callback with _ | cb <;>
    simp [hr, hc, h]

/-- `maybeCallback` either leaves the Core unchanged, or the dispatch guard
held: it flips `calledBack` false→true, records exactly one dispatch, and
touches none of `active`, `detached`, `destroyed`, `executor`. -/
lemma maybeCallback_spec (c : Core T) :
    maybeCallback c = c ∨
    (c.calledBack = false ∧ c.result.isSome = true ∧ c.callback.isSome = true ∧
     c.active = true ∧ (maybeCallback c).calledBack = true ∧
     (maybeCallback c).active = c.active ∧
     (maybeCallback c).detached = c.detached ∧
     (maybeCallback c).destroyed = c.destroyed ∧
     (maybeCallback c).executor = c.executor ∧
     dispatchCount (maybeCallback c) = dispatchCount c + 1) := by
  rcases hr : c.result with _ | r
  · left; unfold maybeCallback; simp [hr]
  rcases hc : c.callback with _ | cb
  · left; unfold maybeCallback; simp [hr, hc]
  by_cases hcb : c.calledBack
  · left; exact maybeCallback_of_calledBack c hcb
  by_cases ha : c.active
  · right
    refine ⟨by simpa using hcb, by simp [hr], by simp [hc], ha, ?_, ?_, ?_, ?_, ?_, ?_⟩ <;>
      · simp only [maybeCallback, dispatchCount, hr, hc]
        simp [hcb, ha]
        by_cases he : c.executor <;> simp [he] <;> omega
  · left; unfold maybeCallback; simp [hr, hc, ha]

/-- `calledBack` is monotone across `maybeCallback`. -/
lemma mc_calledBack_mono (c : Core T) (h : c.calledBack = true) :
    (maybeCallback c).calledBack = true := by
  rw [maybeCallback_of_calledBack c h]; exact h

/-- When all three enabling conditions hold and `calledBack` is clear,
`maybeCallback` fires. -/
lemma mc_fires (c : Core T) (h1 : c.calledBack = false) (h2 : c.result.isSome = true)
    (h3 : c.callback.isSome = true) (h4 : c.active = true) :
    (maybeCallback c).calledBack = true := by
  rcases Option.isSome_iff_exists.mp h2 with ⟨r, hr⟩
  rcases Option.isSome_iff_exists.mp h3 with ⟨cb, hc⟩
  unfold maybeCallback
  simp only [hr, hc]
  simp [h1, h4]
  by_cases he : c.executor <;> simp [he]

/-- The dispatch decision only fires when result, callback and `active` are
all present (the guard of `maybeCallback`). -/
lemma mc_guard (c : Core T) (h1 : c.calledBack = false)
    (h2 : (maybeCallback c).calledBack = true) :
    c.result.isSome = true ∧ c.callback.isSome = true ∧ c.active = true := by
  rcases maybeCallback_spec c with heq | hflip
  · rw [heq] at h2; simp [h1] at h2
  · exact ⟨hflip.2.1, hflip.2.2.1, hflip.2.2.2.1⟩

/-- `detachOne`: every field except `detached`/`destroyed` is preserved;
`detached` increments; `destroyed` is set exactly on reaching 2. -/
lemma detachOne_fields (c : Core T) :
    (detachOne c).calledBack = c.calledBack ∧ (detachOne c).result = c.result ∧
    (detachOne c).callback = c.callback ∧ (detachOne c).active = c.active ∧
    (detachOne c).executor = c.executor ∧ (detachOne c).calls = c.calls ∧
    (detachOne c).tasks = c.tasks ∧ (detachOne c).detached = c.detached + 1 ∧
    (detachOne c).destroyed = (if c.detached + 1 = 2 then true else c.destroyed) := by
  unfold detachOne
  by_cases h : c.detached + 1 = 2 <;> simp [h]

/-- `maybeCallback` never touches `active`, `detached`, `destroyed`, `executor`. -/
lemma mc_fields (c : Core T) :
    (maybeCallback c).active = c.active ∧ (maybeCallback c).detached = c.detached ∧
    (maybeCallback c).destroyed = c.destroyed ∧
    (maybeCallback c).executor = c.executor := by
  rcases maybeCallback_spec c with heq | hflip
  · rw [heq]; exact ⟨rfl, rfl, rfl, rfl⟩
  · obtain ⟨_, _, _, _, _, h6, h7, h8, h9, _⟩ := hflip
    exact ⟨h6, h7, h8, h9⟩

/-- The dispatch-count invariant: exactly one dispatch has been recorded iff
`calledBack` is set. -/
def DInv (c : Core T) : Prop :=
  dispatchCount c = (if c.calledBack then 1 else 0)

lemma mc_dinv (c : Core T) (h : DInv c) : DInv (maybeCallback c) := by
  rcases maybeCallback_spec c with heq | hflip
  · rw [heq]; exact h
  · obtain ⟨hcb, _, _, _, hflip2, _, _, _, _, hdc⟩ := hflip
    unfold DInv at h ⊢
    rw [hdc, hflip2, h, hcb]; simp

lemma detachOne_dinv (c : Core T) (h : DInv c) : DInv (detachOne c) := by
  obtain ⟨h1, _, _, _, _, h6, h7, _, _⟩ := detachOne_fields c
  unfold DInv dispatchCount at h ⊢
  rw [h1, h6, h7]; exact h

lemma step_dinv (c : Core T) (op : Op T) (h : DInv c) : DInv (step c op) := by
  cases op with
  | setCallbackOp f =>
    by_cases hcb : c.callback.isSome
    · simp only [step, setCallback, hcb, if_true]; exact h
    · simp only [step, setCallback, hcb, Bool.false_eq_true, if_false]
      exact mc_dinv _ h
  | setResultOp t =>
    by_cases hrd : ready c
    · simp only [step, setResult, hrd, if_true]; exact h
    · simp only [step, setResult, hrd, Bool.false_eq_true, if_false]
      exact mc_dinv _ h
  | deactivateOp => exact h
  | activateOp => exact mc_dinv _ h
  | setExecutorOp => exact h
  | detachFutureOp =>
    have hA : DInv (if c.callback.isSome then c
        else maybeCallback { c with callback := some Callback.emptyCallback }) := by
      by_cases hcb : c.callback.isSome
      · rw [if_pos hcb]; exact h
      · rw [if_neg hcb]; exact mc_dinv _ h
    exact detachOne_dinv _ (mc_dinv _ hA)
  | detachPromiseOp =>
    have hA : DInv (if ready c then c
        else maybeCallback { c with result := some (Try.exn Exn.brokenPromise) }) := by
      by_cases hrd : ready c
      · rw [if_pos hrd]; exact h
      · rw [if_neg hrd]; exact mc_dinv _ h
    exact detachOne_dinv _ hA

lemma foldl_dinv (ops : List (Op T)) : ∀ (c : Core T), DInv c → DInv (ops.foldl step c) := by
  induction ops with
  | nil => intro c h; exact h
  | cons op rest ih => intro c h; exact ih _ (step_dinv c op h)

lemma run_dinv (ops : List (Op T)) : DInv (run ops) :=
  foldl_dinv ops initCore (by simp [DInv, dispatchCount, initCore])

/-- `calledBack` is monotone across any single operation. -/
lemma step_calledBack_mono (c : Core T) (op : Op T) (h : c.calledBack = true) :
    (step c op).calledBack = true := by
  cases op with
  | setCallbackOp f =>
    by_cases hcb : c.callback.isSome
    · simp only [step, setCallback, hcb, if_true]; exact h
    · simp only [step, setCallback, hcb, Bool.false_eq_true, if_false]
      exact mc_calledBack_mono _ h
  | setResultOp t =>
    by_cases hrd : ready c
    · simp only [step, setResult, hrd, if_true]; exact h
    · simp only [step, setResult, hrd, Bool.false_eq_true, if_false]
      exact mc_calledBack_mono _ h
  | deactivateOp => exact h
  | activateOp => exact mc_calledBack_mono _ h
  | setExecutorOp => exact h
  | detachFutureOp =>
    have hA : (if c.callback.isSome then c
        else maybeCallback { c with callback := some Callback.emptyCallback }).calledBack
          = true := by
      by_cases hcb : c.callback.isSome
      · rw [if_pos hcb]; exact h
      · rw [if_neg hcb]; exact mc_calledBack_mono _ h
    show (detachOne (activate _)).calledBack = true
    rw [(detachOne_fields _).1]
    exact mc_calledBack_mono _ hA
  | detachPromiseOp =>
    have hA : (if ready c then c
        else maybeCallback { c with result := some (Try.exn Exn.brokenPromise) }).calledBack
          = true := by
      by_cases hrd : ready c
      · rw [if_pos hrd]; exact h
      · rw [if_neg hrd]; exact mc_calledBack_mono _ h
    show (detachOne _).calledBack = true
    rw [(detachOne_fields _).1]
    exact hA

/-- C2: `calledBack` transitions false→true at most once; at the decision
point (`maybeCallback`, under the mutex) a flip can only happen when the
result is present, the callback is present, and `active` is true; along any
run, exactly one dispatch has been recorded iff `calledBack` is set. -/
theorem calledBack_transition_guarded (c : Core Nat) (ops : List (Op Nat)) (op : Op Nat)
    (h1 : c.calledBack = false) (h2 : (maybeCallback c).calledBack = true) :
    (c.result.isSome = true ∧ c.callback.isSome = true ∧ c.active = true) ∧
    ((run ops).calledBack = true → (step (run ops) op).calledBack = true) ∧
    dispatchCount (run ops) = (if (run ops).calledBack then 1 else 0) :=
  ⟨mc_guard c h1 h2, step_calledBack_mono (run ops) op, run_dinv ops⟩

/-- Witness for C2: a concrete enabled Core whose `maybeCallback` fires, and
a concrete two-operation run. -/
theorem calledBack_transition_guarded_witness :
    ((({ result := some (Try.val 3), callback := some (Callback.user 0) } :
          Core Nat).result.isSome = true ∧
      ({ result := some (Try.val 3), callback := some (Callback.user 0) } :
          Core Nat).callback.isSome = true ∧
      ({ result := some (Try.val 3), callback := some (Callback.user 0) } :
          Core Nat).active = true) ∧
     ((run [Op.setCallbackOp (Callback.user 1), Op.setResultOp (Try.val 4)]).calledBack
          = true →
      (step (run [Op.setCallbackOp (Callback.user 1), Op.setResultOp (Try.val 4)])
          Op.activateOp).calledBack = true) ∧
     dispatchCount (run [Op.setCallbackOp (Callback.user 1), Op.setResultOp (Try.val 4)]) =
       (if (run [Op.setCallbackOp (Callback.user 1),
                 Op.setResultOp (Try.val 4)]).calledBack then 1 else 0)) :=
  calledBack_transition_guarded
    { result := some (Try.val 3), callback := some (Callback.user 0) }
    [Op.setCallbackOp (Callback.user 1), Op.setResultOp (Try.val 4)]
    Op.activateOp rfl rfl

/-! ### Detach / destruction lemmas -/

/-- Operations other than the two detaches. -/
def nonDetach : Op T → Bool
  | Op.detachFutureOp => false
  | Op.detachPromiseOp => false
  | _ => true

/-- Non-detach operations never touch `detached` or `destroyed`. -/
lemma step_nonDetach_fields (c : Core T) (op : Op T) (h : nonDetach op = true) :
    (step c op).detached = c.detached ∧ (step c op).destroyed = c.destroyed := by
  cases op with
  | setCallbackOp f =>
    by_cases hcb : c.callback.isSome
    · simp [step, setCallback, hcb]
    · simp only [step, setCallback, hcb, Bool.false_eq_true, if_false]
      exact ⟨(mc_fields _).2.1, (mc_fields _).2.2.1⟩
  | setResultOp t =>
    by_cases hrd : ready c
    · simp [step, setResult, hrd]
    · simp only [step, setResult, hrd, Bool.false_eq_true, if_false]
      exact ⟨(mc_fields _).2.1, (mc_fields _).2.2.1⟩
  | deactivateOp => exact ⟨rfl, rfl⟩
  | activateOp => exact ⟨(mc_fields _).2.1, (mc_fields _).2.2.1⟩
  | setExecutorOp => exact ⟨rfl, rfl⟩
  | detachFutureOp => cases h
  | detachPromiseOp => cases h

/-- Along a run of non-detach operations, `detached = 0` and the Core is
not destroyed. -/
lemma run_nonDetach (ops : List (Op T)) (h : ∀ op ∈ ops, nonDetach op = true) :
    (run ops).detached = 0 ∧ (run ops).destroyed = false := by
  suffices hgen : ∀ (l : List (Op T)) (c : Core T), (∀ op ∈ l, nonDetach op = true) →
      (l.foldl step c).detached = c.detached ∧ (l.foldl step c).destroyed = c.destroyed by
    exact (hgen ops initCore h).imp (fun h2 => h2.trans rfl) (fun h2 => h2.trans rfl)
  intro l
  induction l with
  | nil => intro c _; exact ⟨rfl, rfl⟩
  | cons op rest ih =>
    intro c hl
    have h1 := step_nonDetach_fields c op (hl op (List.mem_cons_self op rest))
    have h2 := ih (step c op) (fun o ho => hl o (List.mem_cons_of_mem op ho))
    exact ⟨h2.1.trans h1.1, h2.2.trans h1.2⟩

/-- After `detachPromise`, either the dispatch has fired or a result is
stored (the `BrokenPromise` install). -/
lemma detachPromise_post (c : Core T) :
    (detachPromise c).calledBack = true ∨ (detachPromise c).result.isSome = true := by
  show (detachOne _).calledBack = true ∨ (detachOne _).result.isSome = true
  rw [(detachOne_fields _).1, (detachOne_fields _).2.1]
  by_cases hrd : ready c
  · rw [if_pos hrd]; right; exact hrd
  · rw [if_neg hrd]
    rcases maybeCallback_spec { c with result := some (Try.exn Exn.brokenPromise) } with
      heq | hflip
    · rw [heq]; right; rfl
    · left; exact hflip.2.2.2.2.1

/-- `detachPromise` preserves a set `calledBack`. -/
lemma detachPromise_mono (c : Core T) (h : c.calledBack = true) :
    (detachPromise c).calledBack = true := by
  show (detachOne _).calledBack = true
  rw [(detachOne_fields _).1]
  by_cases hrd : ready c
  · rw [if_pos hrd]; exact h
  · rw [if_neg hrd]; exact mc_calledBack_mono _ h

/-- If the dispatch already fired, or a result is present, then after
`detachFuture` the dispatch has fired: `detachFuture` installs a callback
when missing and forces `active`, so `activate`'s `maybeCallback` fires. -/
lemma detachFuture_flips (c : Core T)
    (h : c.calledBack = true ∨ c.result.isSome = true) :
    (detachFuture c).calledBack = true := by
  show (detachOne (activate _)).calledBack = true
  rw [(detachOne_fields _).1]
  set c1 := (if c.callback.isSome then c
      else maybeCallback { c with callback := some Callback.emptyCallback }) with hc1
  rcases h with hcb | hres
  · have h1 : c1.calledBack = true := by
      rw [hc1]
      by_cases hsome : c.callback.isSome
      · rw [if_pos hsome]; exact hcb
      · rw [if_neg hsome]; exact mc_calledBack_mono _ hcb
    exact mc_calledBack_mono _ h1
  · by_cases hcb : c.calledBack
    · have h1 : c1.calledBack = true := by
        rw [hc1]
        by_cases hsome : c.callback.isSome
        · rw [if_pos hsome]; exact hcb
        · rw [if_neg hsome]; exact mc_calledBack_mono _ hcb
      exact mc_calledBack_mono _ h1
    · -- calledBack still clear: after the callback install, result and
      -- callback are present, and `activate` sets `active`.
      have hcb2 : c.calledBack = false := by simpa using hcb
      have h1 : c1.calledBack = true ∨
          (c1.calledBack = false ∧ c1.result.isSome = true ∧
           c1.callback.isSome = true) := by
        rw [hc1]
        by_cases hsome : c.callback.isSome
        · rw [if_pos hsome]; right; exact ⟨hcb2, hres, hsome⟩
        · rw [if_neg hsome]
          rcases maybeCallback_spec { c with callback := some Callback.emptyCallback } with
            heq | hflip
          · rw [heq]; right; exact ⟨hcb2, hres, by simp⟩
          · left; exact hflip.2.2.2.2.1
      rcases h1 with h1 | ⟨h1, h2, h3⟩
      · exact mc_calledBack_mono _ h1
      · exact mc_fires { c1 with active := true } h1 h2 h3 rfl

/-- After `detachFuture`: either the dispatch has fired, or no result ever
arrived and the Core now has a callback stored, `active` set, and
`calledBack` clear. -/
lemma detachFuture_post (c : Core T) :
    (detachFuture c).calledBack = true ∨
    ((detachFuture c).calledBack = false ∧ (detachFuture c).result.isSome = false ∧
     (detachFuture c).callback.isSome = true ∧ (detachFuture c).active = true) := by
  show (detachOne (activate _)).calledBack = true ∨ _
  rw [(detachOne_fields _).1]
  set c1 := (if c.callback.isSome then c
      else maybeCallback { c with callback := some Callback.emptyCallback }) with hc1
  by_cases hm : (maybeCallback { c1 with active := true }).calledBack = true
  · left; exact hm
  -- `maybeCallback` did not fire, hence it changed nothing and its guard failed
  have heq : maybeCallback { c1 with active := true } = { c1 with active := true } := by
    rcases maybeCallback_spec { c1 with active := true } with heq | hflip
    · exact heq
    · exact absurd hflip.2.2.2.2.1 hm
  have h1 : c1.calledBack = false := by
    have := hm; rw [heq] at this; simpa using this
  have h3 : c1.callback.isSome = true := by
    rw [hc1]
    by_cases hsome : c.callback.isSome
    · rw [if_pos hsome]; exact hsome
    · rw [if_neg hsome]
      rcases maybeCallback_spec { c with callback := some Callback.emptyCallback } with
        heq2 | hflip
      · rw [heq2]; simp
      · exfalso
        -- a flip there would set `calledBack`, contradicting h1
        have : c1.calledBack = true := by rw [hc1, if_neg hsome]; exact hflip.2.2.2.2.1
        rw [h1] at this; cases this
  have h2 : c1.result.isSome = false := by
    by_cases hres : c1.result.isSome
    · exfalso
      have := mc_fires { c1 with active := true } h1 hres h3 rfl
      exact hm this
    · simpa using hres
  right
  rw [detachFuture]
  rw [show activate c1 = maybeCallback { c1 with active := true } from rfl, heq]
  rw [(detachOne_fields _).1, (detachOne_fields _).2.1, (detachOne_fields _).2.2.1,
      (detachOne_fields _).2.2.2.1]
  exact ⟨h1, h2, h3, rfl⟩

/-- Whichever order the two detaches happen in, by the second one the
dispatch has fired. -/
lemma promise_then_future_flips (c : Core T) :
    (detachFuture (detachPromise c)).calledBack = true :=
  detachFuture_flips _ (detachPromise_post c)

lemma future_then_promise_flips (c : Core T) :
    (detachPromise (detachFuture c)).calledBack = true := by
  rcases detachFuture_post c with h | ⟨h1, h2, h3, h4⟩
  · exact detachPromise_mono _ h
  · show (detachOne _).calledBack = true
    rw [(detachOne_fields _).1]
    have hrd : ready (detachFuture c) = false := h2
    rw [if_neg (by rw [hrd]; exact Bool.false_ne_true)]
    exact mc_fires _ h1 (by simp) (by simpa using h3) (by simpa using h4)

/-- Detach counter bookkeeping for the two detaches. -/
lemma detachPromise_detached (c : Core T) :
    (detachPromise c).detached = c.detached + 1 ∧
    (detachPromise c).destroyed = (if c.detached + 1 = 2 then true else c.destroyed) := by
  show (detachOne _).detached = _ ∧ (detachOne _).destroyed = _
  rw [(detachOne_fields _).2.2.2.2.2.2.2.1, (detachOne_fields _).2.2.2.2.2.2.2.2]
  by_cases hrd : ready c
  · rw [if_pos hrd]
    constructor <;> trivial
  · rw [if_neg hrd]
    rw [(mc_fields _).2.1, (mc_fields _).2.2.1]
    constructor <;> trivial

lemma detachFuture_detached (c : Core T) :
    (detachFuture c).detached = c.detached + 1 ∧
    (detachFuture c).destroyed = (if c.detached + 1 = 2 then true else c.destroyed) := by
  show (detachOne (activate _)).detached = _ ∧ (detachOne (activate _)).destroyed = _
  rw [(detachOne_fields _).2.2.2.2.2.2.2.1, (detachOne_fields _).2.2.2.2.2.2.2.2]
  have hact : ∀ d : Core T, (activate d).detached = d.detached ∧
      (activate d).destroyed = d.destroyed :=
    fun d => ⟨(mc_fields _).2.1, (mc_fields _).2.2.1⟩
  rw [(hact _).1, (hact _).2]
  by_cases hsome : c.callback.isSome
  · rw [if_pos hsome]; constructor <;> trivial
  · rw [if_neg hsome]
    rw [(mc_fields _).2.1, (mc_fields _).2.2.1]
    constructor <;> trivial

/-- C3: after any run of non-detach operations, a `detachPromise` and a
`detachFuture` (one per side, in either order): the first detach brings
`detached` to 1 and does not destroy the Core; the second brings it to 2
and destroys it, and `calledBack` is true at that moment. -/
theorem detach_pair_destroys_with_calledBack (ops : List (Op Nat))
    (h : ∀ op ∈ ops, nonDetach op = true) :
    ((step (run ops) Op.detachPromiseOp).detached = 1 ∧
     (step (run ops) Op.detachPromiseOp).destroyed = false ∧
     (step (step (run ops) Op.detachPromiseOp) Op.detachFutureOp).detached = 2 ∧
     (step (step (run ops) Op.detachPromiseOp) Op.detachFutureOp).destroyed = true ∧
     (step (step (run ops) Op.detachPromiseOp) Op.detachFutureOp).calledBack = true) ∧
    ((step (run ops) Op.detachFutureOp).detached = 1 ∧
     (step (run ops) Op.detachFutureOp).destroyed = false ∧
     (step (step (run ops) Op.detachFutureOp) Op.detachPromiseOp).detached = 2 ∧
     (step (step (run ops) Op.detachFutureOp) Op.detachPromiseOp).destroyed = true ∧
     (step (step (run ops) Op.detachFutureOp) Op.detachPromiseOp).calledBack = true) := by
  obtain ⟨hd0, hdes0⟩ := run_nonDetach ops h
  simp only [step]
  constructor
  · have hp := detachPromise_detached (run ops)
    rw [hd0] at hp
    have hp1 : (detachPromise (run ops)).detached = 1 := by rw [hp.1]
    have hp2 : (detachPromise (run ops)).destroyed = false := by
      rw [hp.2]; simp [hdes0]
    have hf := detachFuture_detached (detachPromise (run ops))
    rw [hp1] at hf
    refine ⟨hp1, hp2, by rw [hf.1], by rw [hf.2]; simp, promise_then_future_flips _⟩
  · have hf := detachFuture_detached (run ops)
    rw [hd0] at hf
    have hf1 : (detachFuture (run ops)).detached = 1 := by rw [hf.1]
    have hf2 : (detachFuture (run ops)).destroyed = false := by
      rw [hf.2]; simp [hdes0]
    have hp := detachPromise_detached (detachFuture (run ops))
    rw [hf1] at hp
    refine ⟨hf1, hf2, by rw [hp.1], by rw [hp.2]; simp, future_then_promise_flips _⟩

/-- Witness for C3: the empty run. -/
theorem detach_pair_destroys_with_calledBack_witness :
    ((step (run ([] : List (Op Nat))) Op.detachPromiseOp).detached = 1 ∧
     (step (run ([] : List (Op Nat))) Op.detachPromiseOp).destroyed = false ∧
     (step (step (run ([] : List (Op Nat))) Op.detachPromiseOp)
        Op.detachFutureOp).detached = 2 ∧
     (step (step (run ([] : List (Op Nat))) Op.detachPromiseOp)
        Op.detachFutureOp).destroyed = true ∧
     (step (step (run ([] : List (Op Nat))) Op.detachPromiseOp)
        Op.detachFutureOp).calledBack = true) ∧
    ((step (run ([] : List (Op Nat))) Op.detachFutureOp).detached = 1 ∧
     (step (run ([] : List (Op Nat))) Op.detachFutureOp).destroyed = false ∧
     (step (step (run ([] : List (Op Nat))) Op.detachFutureOp)
        Op.detachPromiseOp).detached = 2 ∧
     (step (step (run ([] : List (Op Nat))) Op.detachFutureOp)
        Op.detachPromiseOp).destroyed = true ∧
     (step (step (run ([] : List (Op Nat))) Op.detachFutureOp)
        Op.detachPromiseOp).calledBack = true) :=
  detach_pair_destroys_with_calledBack [] (by intro op hop; cases hop)

/-! ### C4 / C5: duplicate `setResult` and stability of `ready` -/

/-- C4 counterexample: with an executor installed, after
`setCallback(f); setResult(1)` the dispatch moves the result out, so a
second `setResult(2)` is accepted (no `LogicError`) and stores a new
result, refuting the claim that a second call always fails. -/
theorem setResult_twice_executor_counterexample :
    (setResult (run [Op.setExecutorOp, Op.setCallbackOp (Callback.user 0),
        Op.setResultOp (Try.val 1)]) (Try.val 2)).toOption.map (fun c => c.result)
      = some (some (Try.val 2)) ∧
    (run [Op.setExecutorOp, Op.setCallbackOp (Callback.user 0),
        Op.setResultOp (Try.val 1)]).calledBack = true :=
  ⟨rfl, rfl⟩

/-- C4 amended: a second `setResult` fails with
`LogicError("setResult called twice")` and leaves the Core unchanged
whenever the stored result is still present — i.e. always, except after an
executor-path dispatch has moved the result out. -/
theorem setResult_twice_rejected (c : Core Nat) (t : Try Nat)
    (h : ready c = true) :
    setResult c t = Except.error (LogicError.logicError "setResult called twice") ∧
    step c (Op.setResultOp t) = c := by
  refine ⟨?_, ?_⟩ <;> simp [step, setResult, h]

/-- Witness for C4 (amended) at a Core already holding a result. -/
theorem setResult_twice_rejected_witness :
    setResult ({ result := some (Try.val 1) } : Core Nat) (Try.val 2)
        = Except.error (LogicError.logicError "setResult called twice") ∧
    step ({ result := some (Try.val 1) } : Core Nat) (Op.setResultOp (Try.val 2))
        = ({ result := some (Try.val 1) } : Core Nat) :=
  setResult_twice_rejected { result := some (Try.val 1) } (Try.val 2) rfl

/-- C5 counterexample: with an executor installed and a result set,
`ready()` returns true; registering the callback fires the executor-path
dispatch, which moves the result out, and `ready()` then returns false —
a true `ready()` is not stable across an executor dispatch. -/
theorem ready_unstable_executor_counterexample :
    ready (run [Op.setExecutorOp, Op.setResultOp (Try.val 1)]) = true ∧
    ready (step (run [Op.setExecutorOp, Op.setResultOp (Try.val 1)])
        (Op.setCallbackOp (Callback.user 0))) = false :=
  ⟨rfl, rfl⟩

/-- `maybeCallback` leaves the result cell alone when no executor is
installed (the inline path moves out of `*result_`, not `result_`). -/
lemma mc_result_no_executor (c : Core T) (h : c.executor = false) :
    (maybeCallback c).result = c.result := by
  unfold maybeCallback
  rcases hr : c.result with _ | r <;> rcases hc : c.callback with _ | cb <;>
    simp [hr, hc, h]
  split <;> simp [hr]

/-- C5 amended: a true `ready()` is stable across every operation as long
as no executor is installed; only the executor-path dispatch can move the
result out and flip `ready()` back to false. -/
theorem ready_stable_without_executor (c : Core Nat) (op : Op Nat)
    (h1 : ready c = true) (h2 : c.executor = false) :
    ready (step c op) = true := by
  cases op with
  | setCallbackOp f =>
    by_cases hcb : c.callback.isSome
    · simp only [step, setCallback, hcb, if_true]; exact h1
    · simp only [step, setCallback, hcb, Bool.false_eq_true, if_false]
      show ((maybeCallback { c with callback := some f }).result).isSome = true
      rw [mc_result_no_executor { c with callback := some f } h2]
      exact h1
  | setResultOp t =>
    simp [step, setResult, h1]
  | deactivateOp => exact h1
  | activateOp =>
    show ((maybeCallback { c with active := true }).result).isSome = true
    rw [mc_result_no_executor { c with active := true } h2]
    exact h1
  | setExecutorOp => exact h1
  | detachFutureOp =>
    show ready (detachOne (activate _)) = true
    set c1 := (if c.callback.isSome then c
        else maybeCallback { c with callback := some Callback.emptyCallback }) with hc1
    have hres1 : c1.result = c.result ∧ c1.executor = false := by
      rw [hc1]
      by_cases hsome : c.callback.isSome
      · rw [if_pos hsome]; exact ⟨rfl, h2⟩
      · rw [if_neg hsome]
        exact ⟨mc_result_no_executor _ h2, ((mc_fields _).2.2.2).trans h2⟩
    show ((detachOne (maybeCallback { c1 with active := true })).result).isSome = true
    rw [(detachOne_fields _).2.1,
        mc_result_no_executor { c1 with active := true } hres1.2, hres1.1]
    exact h1
  | detachPromiseOp =>
    show ready (detachOne _) = true
    rw [show (if ready c then c
        else maybeCallback { c with result := some (Try.exn Exn.brokenPromise) }) = c
      from if_pos h1]
    show ((detachOne c).result).isSome = true
    rw [(detachOne_fields _).2.1]
    exact h1

/-- Witness for C5 (amended). -/
theorem ready_stable_without_executor_witness :
    ready (step ({ result := some (Try.val 7) } : Core Nat) Op.activateOp) = true :=
  ready_stable_without_executor { result := some (Try.val 7) } Op.activateOp rfl rfl

/-! ### VariadicContext (heterogeneous whenAll) -/

/-- `VariadicContext<Ts...>`: the heterogeneous fan-in context.  The tuple
`std::tuple<Try<Ts>...>` is modelled positionally as a dependent function
on `Fin n`; `fulfilled` records each `p.setValue(...)` (there should be at
most one) and `destroyed` records `delete ctx`. -/
structure VariadicContext (n : Nat) (Ts : Fin n → Type) where
  total : Nat
  count : Nat
  results : (i : Fin n) → Option (Try (Ts i))
  fulfilled : List ((i : Fin n) → Option (Try (Ts i)))
  destroyed : Bool

/-- The `VariadicContext` constructor: `total(0), count(0)`. -/
def VariadicContext.start (n : Nat) (Ts : Fin n → Type) : VariadicContext n Ts :=
  { total := 0, count := 0, results := fun _ => none, fulfilled := [],
    destroyed := false }

/-- The callback `whenAllVariadicHelper` attaches for input `i`: store the
`Try` at position `i`, then `if (++ctx->count == ctx->total)` fulfil the
promise with the tuple and `delete ctx`. -/
def childCallback {n : Nat} {Ts : Fin n → Type} (ctx : VariadicContext n Ts)
    (i : Fin n) (t : Try (Ts i)) : VariadicContext n Ts :=
  let results1 := Function.update ctx.results i (some t)
  let count1 := ctx.count + 1
  if count1 = ctx.total then
    { ctx with results := results1, count := count1,
               fulfilled := ctx.fulfilled ++ [results1], destroyed := true }
  else
    { ctx with results := results1, count := count1 }

/-- A sequence of child completions, applied in order. -/
def runChildren {n : Nat} {Ts : Fin n → Type} (ctx : VariadicContext n Ts)
    (fires : List ((i : Fin n) × Try (Ts i))) : VariadicContext n Ts :=
  fires.foldl (fun c p => childCallback c p.1 p.2) ctx

lemma runChildren_nil {n : Nat} {Ts : Fin n → Type} (ctx : VariadicContext n Ts) :
    runChildren ctx [] = ctx := rfl

lemma runChildren_cons {n : Nat} {Ts : Fin n → Type} (ctx : VariadicContext n Ts)
    (p : (i : Fin n) × Try (Ts i)) (ps : List ((i : Fin n) × Try (Ts i))) :
    runChildren ctx (p :: ps) = runChildren (childCallback ctx p.1 p.2) ps := rfl

/-- C10: the `VariadicContext` constructor initialises `total` to 0 and the
child callback never writes `total`; hence from a freshly constructed
context (total left at 0) no sequence of child completions ever fulfils the
promise or destroys the context: `++count` is never 0. -/
theorem variadic_total_zero_never_fulfills (n : Nat) (Ts : Fin n → Type)
    (fires : List ((i : Fin n) × Try (Ts i))) (ctx : VariadicContext n Ts)
    (i : Fin n) (t : Try (Ts i)) :
    (VariadicContext.start n Ts).total = 0 ∧
    (childCallback ctx i t).total = ctx.total ∧
    (runChildren (VariadicContext.start n Ts) fires).fulfilled = [] ∧
    (runChildren (VariadicContext.start n Ts) fires).destroyed = false := by
  have hcb : ∀ (d : VariadicContext n Ts) (j : Fin n) (u : Try (Ts j)),
      (childCallback d j u).total = d.total := by
    intro d j u
    unfold childCallback
    by_cases h : d.count + 1 = d.total <;> simp [h]
  refine ⟨rfl, hcb ctx i t, ?_⟩
  suffices hgen : ∀ (l : List ((i : Fin n) × Try (Ts i))) (d : VariadicContext n Ts),
      d.total = 0 →
      (runChildren d l).fulfilled = d.fulfilled ∧
      (runChildren d l).destroyed = d.destroyed by
    exact hgen fires (VariadicContext.start n Ts) rfl
  intro l
  induction l with
  | nil => intro d _; exact ⟨rfl, rfl⟩
  | cons p ps ih =>
    intro d hd
    rw [runChildren_cons]
    have hne : d.count + 1 ≠ d.total := by rw [hd]; exact Nat.succ_ne_zero d.count
    have hstep : (childCallback d p.1 p.2).fulfilled = d.fulfilled ∧
        (childCallback d p.1 p.2).destroyed = d.destroyed ∧
        (childCallback d p.1 p.2).total = d.total := by
      unfold childCallback
      rw [if_neg hne]
      exact ⟨rfl, rfl, rfl⟩
    obtain ⟨hih1, hih2⟩ := ih (childCallback d p.1 p.2) (hstep.2.2.trans hd)
    exact ⟨hih1.trans hstep.1, hih2.trans hstep.2.1⟩

/-! ### C8: positions and single fulfilment for the heterogeneous whenAll -/

lemma runChildren_append {n : Nat} {Ts : Fin n → Type} (ctx : VariadicContext n Ts)
    (l1 l2 : List ((i : Fin n) × Try (Ts i))) :
    runChildren ctx (l1 ++ l2) = runChildren (runChildren ctx l1) l2 := by
  unfold runChildren
  rw [List.foldl_append]

/-- The context as set up by the caller for `N` inputs: constructor state
with `total` set to `N` (the claim's premise "context total equals N"). -/
def whenAllCtx (n : Nat) (Ts : Fin n → Type) : VariadicContext n Ts :=
  { VariadicContext.start n Ts with total := n }

/-- The child completions for the inputs in `order`, input `i` delivering
`t i`. -/
def fireList (n : Nat) (Ts : Fin n → Type) (t : (i : Fin n) → Try (Ts i))
    (order : List (Fin n)) : List ((i : Fin n) × Try (Ts i)) :=
  order.map (fun i => ⟨i, t i⟩)

/-- The context state after the inputs in `processed` have completed and no
fulfilment has happened yet. -/
def midState (n : Nat) (Ts : Fin n → Type) (t : (i : Fin n) → Try (Ts i))
    (processed : List (Fin n)) : VariadicContext n Ts :=
  { total := n, count := processed.length,
    results := fun i => if i ∈ processed then some (t i) else none,
    fulfilled := [], destroyed := false }

lemma update_mem_concat {n : Nat} {Ts : Fin n → Type}
    (t : (i : Fin n) → Try (Ts i)) (processed : List (Fin n)) (a : Fin n) :
    Function.update (fun i => if i ∈ processed then some (t i) else none) a
        (some (t a)) =
      fun i => if i ∈ processed ++ [a] then some (t i) else none := by
  funext i
  by_cases hi : i = a
  · subst hi
    simp
  · rw [Function.update_noteq hi]
    simp [hi]

/-- Running the completions in `remaining` from a partial state, while the
counter stays short of `total`, just records results and counts. -/
lemma run_mid (n : Nat) (Ts : Fin n → Type) (t : (i : Fin n) → Try (Ts i)) :
    ∀ (remaining processed : List (Fin n)),
    processed.length + remaining.length < n →
    runChildren (midState n Ts t processed) (fireList n Ts t remaining) =
      midState n Ts t (processed ++ remaining) := by
  intro remaining
  induction remaining with
  | nil =>
    intro processed h
    rw [show fireList n Ts t [] = [] from rfl, runChildren_nil, List.append_nil]
  | cons a rest ih =>
    intro processed h
    rw [show fireList n Ts t (a :: rest) = ⟨a, t a⟩ :: fireList n Ts t rest from rfl,
        runChildren_cons]
    have hlen : processed.length + (rest.length + 1) < n := by
      simpa using h
    have hne : processed.length + 1 ≠ n := by omega
    have hcc : childCallback (midState n Ts t processed) a (t a)
        = midState n Ts t (processed ++ [a]) := by
      simp only [childCallback, midState]
      rw [if_neg hne]
      simp [update_mem_concat t processed a]
    rw [hcc, ih (processed ++ [a]) (by simp; omega), List.append_assoc,
        List.singleton_append]

/-- A nodup list over `Fin n` of length `n` contains every index. -/
lemma mem_of_nodup_length (n : Nat) (order : List (Fin n)) (hnd : order.Nodup)
    (hlen : order.length = n) (i : Fin n) : i ∈ order := by
  have hcard : order.toFinset.card = n := by
    rw [List.toFinset_card_of_nodup hnd, hlen]
  have huniv : order.toFinset = Finset.univ :=
    Finset.eq_univ_of_card _ (by rw [hcard, Fintype.card_fin])
  rw [← List.mem_toFinset, huniv]
  exact Finset.mem_univ i

lemma whenAllCtx_eq_mid (n : Nat) (Ts : Fin n → Type)
    (t : (i : Fin n) → Try (Ts i)) :
    whenAllCtx n Ts = midState n Ts t [] := by
  unfold whenAllCtx VariadicContext.start midState
  have hres : (fun i : Fin n => if i ∈ ([] : List (Fin n)) then some (t i) else none)
      = fun _ => (none : Option (Try (Ts _))) := by
    funext i
    simp
  simp only [hres, List.length_nil]

/-- C8: for the heterogeneous fan-in over `N ≥ 1` inputs whose context
total equals `N`, and every completion order (a nodup enumeration of the
`N` inputs): position `i` of the results tuple holds the `Try` delivered by
input `i`; the aggregate promise is fulfilled exactly once, with that
tuple, by the completion that makes the counter reach `N` (no proper
initial part of the order has fulfilled it); and the context is then
destroyed. -/
theorem whenAll_positions_single_fulfill (n : Nat) (Ts : Fin n → Type)
    (t : (i : Fin n) → Try (Ts i)) (order : List (Fin n))
    (h1 : 1 ≤ n) (hnd : order.Nodup) (hlen : order.length = n) :
    (runChildren (whenAllCtx n Ts) (fireList n Ts t order)).results
        = (fun i => some (t i)) ∧
    (runChildren (whenAllCtx n Ts) (fireList n Ts t order)).fulfilled
        = [fun i => some (t i)] ∧
    (runChildren (whenAllCtx n Ts) (fireList n Ts t order)).destroyed = true ∧
    (runChildren (whenAllCtx n Ts) (fireList n Ts t order)).count = n ∧
    (∀ pre suf, order = pre ++ suf → suf ≠ [] →
      (runChildren (whenAllCtx n Ts) (fireList n Ts t pre)).fulfilled = [] ∧
      (runChildren (whenAllCtx n Ts) (fireList n Ts t pre)).destroyed = false) := by
  have hall : ∀ i : Fin n, i ∈ order := mem_of_nodup_length n order hnd hlen
  have hne : order ≠ [] := by
    intro h0
    rw [h0] at hlen
    simp at hlen
    omega
  obtain ⟨pre0, last, hsplit0⟩ := (List.eq_nil_or_concat order).resolve_left hne
  have hsplit : order = pre0 ++ [last] := by
    rw [hsplit0, List.concat_eq_append]
  have hprelen : pre0.length + 1 = n := by
    rw [hsplit] at hlen
    simpa using hlen
  have hpre : runChildren (whenAllCtx n Ts) (fireList n Ts t pre0)
      = midState n Ts t pre0 := by
    rw [whenAllCtx_eq_mid n Ts t]
    simpa using run_mid n Ts t pre0 [] (by simp; omega)
  have hfire : fireList n Ts t order
      = fireList n Ts t pre0 ++ [⟨last, t last⟩] := by
    rw [hsplit]
    simp [fireList]
  have hfinal : runChildren (whenAllCtx n Ts) (fireList n Ts t order)
      = childCallback (midState n Ts t pre0) last (t last) := by
    rw [hfire, runChildren_append, hpre, runChildren_cons, runChildren_nil]
  have hlast : childCallback (midState n Ts t pre0) last (t last)
      = { total := n, count := n,
          results := fun i => if i ∈ pre0 ++ [last] then some (t i) else none,
          fulfilled := [fun i => if i ∈ pre0 ++ [last] then some (t i) else none],
          destroyed := true } := by
    simp only [childCallback, midState]
    rw [if_pos hprelen]
    simp [update_mem_concat t pre0 last, hprelen]
  have hres : (fun i => if i ∈ pre0 ++ [last] then some (t i) else none)
      = fun i => some (t i) := by
    funext i
    have hmem : i ∈ pre0 ++ [last] := by
      rw [← hsplit]
      exact hall i
    simp [hmem]
  refine ⟨?_, ?_, ?_, ?_, ?_⟩
  · rw [hfinal, hlast]
    exact hres
  · rw [hfinal, hlast]
    show [fun i => if i ∈ pre0 ++ [last] then some (t i) else none]
        = [fun i => some (t i)]
    rw [hres]
  · rw [hfinal, hlast]
  · rw [hfinal, hlast]
  · intro pre suf hps hsuf
    have hprelt : pre.length < n := by
      rw [hps] at hlen
      rcases suf with _ | ⟨a, l⟩
      · exact absurd rfl hsuf
      · simp at hlen
        omega
    have hrunpre : runChildren (whenAllCtx n Ts) (fireList n Ts t pre)
        = midState n Ts t pre := by
      rw [whenAllCtx_eq_mid n Ts t]
      simpa using run_mid n Ts t pre [] (by simp; omega)
    rw [hrunpre]
    exact ⟨rfl, rfl⟩

/-- Witness for C8 at two inputs completing in reverse order. -/
theorem whenAll_positions_single_fulfill_witness :
    (runChildren (whenAllCtx 2 (fun _ => Nat))
        (fireList 2 (fun _ => Nat) (fun i => Try.val i.val) [1, 0])).results
      = (fun i => some (Try.val i.val)) ∧
    (runChildren (whenAllCtx 2 (fun _ => Nat))
        (fireList 2 (fun _ => Nat) (fun i => Try.val i.val) [1, 0])).fulfilled
      = [fun i => some (Try.val i.val)] ∧
    (runChildren (whenAllCtx 2 (fun _ => Nat))
        (fireList 2 (fun _ => Nat) (fun i => Try.val i.val) [1, 0])).destroyed
      = true ∧
    (runChildren (whenAllCtx 2 (fun _ => Nat))
        (fireList 2 (fun _ => Nat) (fun i => Try.val i.val) [1, 0])).count = 2 ∧
    (∀ pre suf, ([1, 0] : List (Fin 2)) = pre ++ suf → suf ≠ [] →
      (runChildren (whenAllCtx 2 (fun _ => Nat))
          (fireList 2 (fun _ => Nat) (fun i => Try.val i.val) pre)).fulfilled
        = [] ∧
      (runChildren (whenAllCtx 2 (fun _ => Nat))
          (fireList 2 (fun _ => Nat) (fun i => Try.val i.val) pre)).destroyed
        = false) :=
  whenAll_positions_single_fulfill 2 (fun _ => Nat) (fun i => Try.val i.val)
    [1, 0] (by decide) (by decide) rfl

/-! ### WhenAnyContext -/

/-- `WhenAnyContext<T>`: `done` flag and refcount, with `destroyed`
recording `delete this` in `decref`. -/
structure WhenAnyContext where
  done : Bool
  ref_count : Nat
  destroyed : Bool

/-- `WhenAnyContext(size_t n)`: `done(false), ref_count(n)`. -/
def WhenAnyContext.start (n : Nat) : WhenAnyContext :=
  { done := false, ref_count := n, destroyed := false }

/-- `WhenAnyContext::decref`: `if (--ref_count == 0) delete this`. -/
def WhenAnyContext.decref (c : WhenAnyContext) : WhenAnyContext :=
  let r := c.ref_count - 1
  if r = 0 then { c with ref_count := r, destroyed := true }
  else { c with ref_count := r }

/-- After `k ≤ n` decrefs from refcount `n ≥ 1`: `ref_count = n - k`, and
the context is destroyed exactly if `k = n`. -/
lemma decref_iterate (n : Nat) (h1 : 1 ≤ n) :
    ∀ k, k ≤ n →
    WhenAnyContext.decref^[k] (WhenAnyContext.start n) =
      { done := false, ref_count := n - k, destroyed := decide (k = n) } := by
  intro k
  induction k with
  | zero =>
    intro _
    simp only [Function.iterate_zero, id_eq]
    unfold WhenAnyContext.start
    have : decide (0 = n) = false := by
      apply decide_eq_false
      omega
    rw [this, Nat.sub_zero]
  | succ k ih =>
    intro hk
    have hk2 : k ≤ n := Nat.le_of_succ_le hk
    rw [Function.iterate_succ_apply', ih hk2]
    have hkn : decide (k = n) = false := by
      apply decide_eq_false
      omega
    rw [hkn]
    unfold WhenAnyContext.decref
    by_cases hz : n - k - 1 = 0
    · have hkn2 : k + 1 = n := by omega
      simp only [hz, if_true]
      have : decide (k + 1 = n) = true := by rw [decide_eq_true_iff]; exact hkn2
      rw [this]
      have : n - (k + 1) = 0 := by omega
      rw [this]
    · have hkn2 : ¬(k + 1 = n) := by omega
      simp only [hz, if_false]
      have h3 : decide (k + 1 = n) = false := by
        apply decide_eq_false
        exact hkn2
      rw [h3]
      have : n - k - 1 = n - (k + 1) := by omega
      rw [this]

/-- C9: for a `WhenAnyContext` with refcount `n ≥ 1`, no call before the
`n`-th destroys the context, and the `n`-th call destroys it (driving
`ref_count` to 0). -/
theorem whenAny_decref_destroys_at_n (n k : Nat) (h1 : 1 ≤ n) (hk : k < n) :
    (WhenAnyContext.decref^[k] (WhenAnyContext.start n)).destroyed = false ∧
    (WhenAnyContext.decref^[n] (WhenAnyContext.start n)).destroyed = true ∧
    (WhenAnyContext.decref^[n] (WhenAnyContext.start n)).ref_count = 0 := by
  rw [decref_iterate n h1 k (Nat.le_of_lt hk), decref_iterate n h1 n (Nat.le_refl n)]
  refine ⟨?_, ?_, ?_⟩
  · show decide (k = n) = false
    apply decide_eq_false
    omega
  · show decide (n = n) = true
    simp
  · show n - n = 0
    omega

/-- Witness for C9 at `n = 3`, `k = 2`. -/
theorem whenAny_decref_destroys_at_n_witness :
    (WhenAnyContext.decref^[2] (WhenAnyContext.start 3)).destroyed = false ∧
    (WhenAnyContext.decref^[3] (WhenAnyContext.start 3)).destroyed = true ∧
    (WhenAnyContext.decref^[3] (WhenAnyContext.start 3)).ref_count = 0 :=
  whenAny_decref_destroys_at_n 3 2 (by decide) (by decide)

end Wangle
